import Mathlib

/-!
Verification of the PDF-renaming pipeline (`src/rename_pdfs.py`).

Strings are modelled as lists of Unicode code points (`List Nat`), written
`Str`.  The character-class functions (`str.isalnum`, `str.lower`,
`str.strip`, the regex classes `\w` and `\s`) are modelled on their ASCII
behaviour, which is the fragment every claim and every input in this
development exercises.  External effects (pdfplumber/PyPDF2 extraction,
`ollama.chat`, `json.loads`, the filesystem) are modelled as explicit
oracle parameters or explicit state, so that each embedded function is a
pure, executable Lean function mirroring the corresponding Python source.
-/

/-- A Python string: the list of its character code points. -/
abbrev Str := List Nat

/-- Code points of a Lean string literal, used to write concrete inputs. -/
def strChars (s : String) : Str := s.data.map Char.toNat

/-- ASCII model of Python `str.isalnum` for a single character. -/
def pyIsAlnum (c : Nat) : Bool :=
  (48 ≤ c && c ≤ 57) || (65 ≤ c && c ≤ 90) || (97 ≤ c && c ≤ 122)

/-- Characters kept by `clean_filename`: alphanumerics, space, hyphen, underscore
(`c.isalnum() or c in ' -_'`). -/
def isAllowedChar (c : Nat) : Bool :=
  pyIsAlnum c || c == 32 || c == 45 || c == 95

/-- ASCII model of Python whitespace (`str.strip` default, regex `\s`):
tab, newline, vertical tab, form feed, carriage return, space. -/
def isPySpace (c : Nat) : Bool :=
  c == 32 || c == 9 || c == 10 || c == 11 || c == 12 || c == 13

/-- ASCII model of Python `str.lower` on one character. -/
def pyToLower (c : Nat) : Nat :=
  if 65 ≤ c ∧ c ≤ 90 then c + 32 else c

/-- ASCII model of Python `str.upper` on one character. -/
def pyToUpper (c : Nat) : Nat :=
  if 97 ≤ c ∧ c ≤ 122 then c - 32 else c

/-- Python `str.lstrip()` (ASCII whitespace model). -/
def pyLStrip (s : Str) : Str := s.dropWhile isPySpace

/-- Python `str.rstrip()` (ASCII whitespace model). -/
def pyRStrip (s : Str) : Str := (s.reverse.dropWhile isPySpace).reverse

/-- Python `str.strip()` (ASCII whitespace model). -/
def pyStrip (s : Str) : Str := pyRStrip (pyLStrip s)

/-- The function `clean_filename` (source lines 148-158):
`''.join(c for c in text if c.isalnum() or c in ' -_')[:100].strip() if text else "Unknown"`.
The argument is `Option Str` because Python callers pass `str | None`, and
both `None` and the empty string are falsy. -/
def clean_filename (text : Option Str) : Str :=
  match text with
  | none => strChars ("Unknown")
  | some t =>
      if t = [] then strChars ("Unknown")
      else pyStrip ((t.filter isAllowedChar).take 100)

/-- Python `x or y` on strings: `y` when `x` is empty, else `x`.  Models the
`clean_filename(title) or "Unknown Title"` pattern of source lines 176-177. -/
def orPlaceholder (x ph : Str) : Str := if x = [] then ph else x

/-- The sanitized title component of source line 176:
`clean_filename(title) or "Unknown Title"`. -/
def clean_title_component (title : Option Str) : Str :=
  orPlaceholder (clean_filename title) (strChars ("Unknown Title"))

/-- The sanitized author component of source line 177:
`clean_filename(author) or "Unknown Author"`. -/
def clean_author_component (author : Option Str) : Str :=
  orPlaceholder (clean_filename author) (strChars ("Unknown Author"))

-- ------------------------------------------------------------------
-- Basic list lemmas used by the sanitization proofs
-- ------------------------------------------------------------------

theorem length_dropWhile_le (p : Nat → Bool) (l : Str) :
    (l.dropWhile p).length ≤ l.length := by
  induction l with
  | nil => simp
  | cons x xs ih =>
      by_cases h : p x
      · simp [List.dropWhile_cons, h]; omega
      · simp [List.dropWhile_cons, h]

theorem mem_dropWhile (p : Nat → Bool) (l : Str) (c : Nat)
    (h : c ∈ l.dropWhile p) : c ∈ l := by
  induction l with
  | nil => simp at h
  | cons x xs ih =>
      by_cases hx : p x
      · simp [List.dropWhile_cons, hx] at h
        exact List.mem_cons_of_mem _ (ih h)
      · simpa [List.dropWhile_cons, hx] using h

theorem mem_pyRStrip (l : Str) (c : Nat) (h : c ∈ pyRStrip l) : c ∈ l := by
  unfold pyRStrip at h
  rw [List.mem_reverse] at h
  have := mem_dropWhile isPySpace l.reverse c h
  rwa [List.mem_reverse] at this

theorem mem_pyStrip (l : Str) (c : Nat) (h : c ∈ pyStrip l) : c ∈ l := by
  unfold pyStrip pyLStrip at h
  exact mem_dropWhile _ _ _ (mem_pyRStrip _ _ h)

theorem pyRStrip_length_le (l : Str) : (pyRStrip l).length ≤ l.length := by
  unfold pyRStrip
  calc (l.reverse.dropWhile isPySpace).reverse.length
      = (l.reverse.dropWhile isPySpace).length := by simp
    _ ≤ l.reverse.length := length_dropWhile_le _ _
    _ = l.length := by simp

theorem pyStrip_length_le (l : Str) : (pyStrip l).length ≤ l.length := by
  unfold pyStrip pyLStrip
  calc (pyRStrip (l.dropWhile isPySpace)).length
      ≤ (l.dropWhile isPySpace).length := pyRStrip_length_le _
    _ ≤ l.length := length_dropWhile_le _ _

theorem dropWhile_head_not (p : Nat → Bool) (l : Str) (x : Nat) (xs : Str)
    (h : l.dropWhile p = x :: xs) : p x = false := by
  induction l with
  | nil => simp at h
  | cons y ys ih =>
      by_cases hy : p y
      · rw [List.dropWhile_cons, if_pos hy] at h
        exact ih h
      · rw [List.dropWhile_cons, if_neg hy] at h
        cases h
        simpa using hy

theorem dropWhile_of_head_not (p : Nat → Bool) (l : Str)
    (h : ∀ x xs, l = x :: xs → p x = false) : l.dropWhile p = l := by
  cases l with
  | nil => simp
  | cons x xs =>
      rw [List.dropWhile_cons, if_neg]
      simp [h x xs rfl]

/-- Python `lstrip` is idempotent. -/
theorem pyLStrip_idem (l : Str) : pyLStrip (pyLStrip l) = pyLStrip l := by
  unfold pyLStrip
  apply dropWhile_of_head_not
  intro x xs h
  exact dropWhile_head_not _ l x xs h

/-- Python `rstrip` is idempotent. -/
theorem pyRStrip_idem (l : Str) : pyRStrip (pyRStrip l) = pyRStrip l := by
  unfold pyRStrip
  rw [List.reverse_reverse]
  rw [dropWhile_of_head_not]
  intro x xs h
  exact dropWhile_head_not _ l.reverse x xs h

/-- Applying `rstrip` after `lstrip` leaves no leading whitespace, so `lstrip` of it is
the identity. -/
theorem pyLStrip_pyRStrip_pyLStrip (l : Str) :
    pyLStrip (pyRStrip (pyLStrip l)) = pyRStrip (pyLStrip l) := by
  unfold pyLStrip
  apply dropWhile_of_head_not
  intro x xs h
  -- the head of `pyRStrip (dropWhile isPySpace l)` is the head of
  -- `dropWhile isPySpace l` (rstrip only removes at the end)
  have hx : x ∈ pyRStrip (l.dropWhile isPySpace) := by
    rw [h]; exact List.mem_cons_self _ _
  -- a more direct route: rstrip output is a prefix of its input
  unfold pyRStrip at h
  -- `(dropWhile p (reverse m)).reverse = x :: xs` means m = x :: ...
  set m := l.dropWhile isPySpace with hm
  have : m.dropWhile isPySpace = m := by
    apply dropWhile_of_head_not
    intro y ys hy
    exact dropWhile_head_not _ l y ys hy
  -- head of reverse (dropWhile q (reverse m)) equals head of m when nonempty
  have hpre : (m.reverse.dropWhile isPySpace).reverse.head? = some x := by
    rw [h]; rfl
  -- m.reverse.dropWhile p is a suffix of m.reverse, so its reverse is a prefix of m.
  have hsub : ∃ t, m = (m.reverse.dropWhile isPySpace).reverse ++ t := by
    have : ∃ s, m.reverse = s ++ m.reverse.dropWhile isPySpace := by
      exact ⟨m.reverse.takeWhile isPySpace, (List.takeWhile_append_dropWhile _ _).symm⟩
    obtain ⟨s, hs⟩ := this
    refine ⟨s.reverse, ?_⟩
    have := congrArg List.reverse hs
    rw [List.reverse_reverse, List.reverse_append] at this
    exact this
  obtain ⟨t, ht⟩ := hsub
  rw [h] at ht
  -- so m = x :: (xs ++ t); its head x fails isPySpace by the lstrip property
  have : m.dropWhile isPySpace = m := this
  rw [ht] at this
  simp only [List.cons_append] at this
  by_cases hx2 : isPySpace x
  · rw [List.dropWhile_cons, if_pos hx2] at this
    have hlen := length_dropWhile_le isPySpace (xs ++ t)
    have hthis := congrArg List.length this
    rw [List.length_cons] at hthis
    omega
  · simpa using hx2

/-- Python `strip` is idempotent. -/
theorem pyStrip_idem (l : Str) : pyStrip (pyStrip l) = pyStrip l := by
  unfold pyStrip
  rw [pyLStrip_pyRStrip_pyLStrip, pyRStrip_idem]

/-- Every character of a `clean_filename` result on a nonempty input is an
allowed filename character. -/
theorem clean_filename_chars (s : Str) (hs : s ≠ []) (c : Nat)
    (hc : c ∈ clean_filename (some s)) : isAllowedChar c = true := by
  simp only [clean_filename] at hc
  rw [if_neg hs] at hc
  have h1 := mem_pyStrip _ _ hc
  have h2 := (List.take_sublist 100 (s.filter isAllowedChar)).subset h1
  exact (List.mem_filter.mp h2).2

/-- The function `clean_filename` truncates: the result of sanitizing a nonempty string has
at most 100 characters. -/
theorem clean_filename_length (s : Str) (hs : s ≠ []) :
    (clean_filename (some s)).length ≤ 100 := by
  simp only [clean_filename]
  rw [if_neg hs]
  calc (pyStrip ((s.filter isAllowedChar).take 100)).length
      ≤ ((s.filter isAllowedChar).take 100).length := pyStrip_length_le _
    _ ≤ 100 := List.length_take_le 100 (s.filter isAllowedChar)

/-- The function `clean_filename` trims: its result on a nonempty input is strip-fixed. -/
theorem clean_filename_stripped (s : Str) (hs : s ≠ []) :
    pyStrip (clean_filename (some s)) = clean_filename (some s) := by
  simp only [clean_filename]
  rw [if_neg hs]
  exact pyStrip_idem _

/-- On an input all of whose characters are allowed, which is at most 100 long
and strip-fixed, `clean_filename` is the identity (provided it is nonempty). -/
theorem clean_filename_fixed (r : Str) (hne : r ≠ [])
    (hch : ∀ c ∈ r, isAllowedChar c = true)
    (hlen : r.length ≤ 100)
    (hstrip : pyStrip r = r) :
    clean_filename (some r) = r := by
  simp only [clean_filename]
  rw [if_neg hne]
  rw [List.filter_eq_self.mpr hch, List.take_of_length_le hlen, hstrip]

/-- Amended C10: `clean_filename` is idempotent on every input whose sanitized
result is nonempty.  (When the result is empty, re-sanitizing yields the
falsy-input placeholder "Unknown" instead, see the counterexample.) -/
theorem clean_filename_idempotent_amended (s : Str)
    (h : clean_filename (some s) ≠ []) :
    clean_filename (some (clean_filename (some s))) = clean_filename (some s) := by
  by_cases hs : s = []
  · subst hs
    decide
  · exact clean_filename_fixed _ h
      (clean_filename_chars s hs)
      (clean_filename_length s hs)
      (clean_filename_stripped s hs)

/-- C10 counterexample: sanitizing `"?"` yields the empty string, and
re-sanitizing that yields `"Unknown"`, so sanitization is not idempotent on
every string. -/
theorem clean_filename_idem_counterexample :
    clean_filename (some (clean_filename (some (strChars ("?")))))
      ≠ clean_filename (some (strChars ("?"))) := by
  decide

/-- Witness for the amended C10 theorem at the concrete input `"My Title"`. -/
theorem clean_filename_idempotent_amended_witness :
    clean_filename (some (strChars ("My Title"))) ≠ [] ∧
    clean_filename (some (clean_filename (some (strChars ("My Title")))))
      = clean_filename (some (strChars ("My Title"))) :=
  ⟨by decide, clean_filename_idempotent_amended (strChars ("My Title")) (by decide)⟩

/-- Amended C4: for every nonempty input string, sanitization keeps only
alphanumerics, spaces, hyphens and underscores, truncates to at most 100
characters, trims surrounding whitespace, and substitutes the component
placeholder ("Unknown Title" / "Unknown Author") exactly when that result is
empty; sanitizing `"A:B*C?<Title>"` yields `"ABCTitle"`.  (For an empty or
absent input the code instead produces the generic placeholder "Unknown",
see the counterexample.) -/
theorem clean_filename_spec_amended :
    (clean_title_component (some (strChars ("A:B*C?<Title>"))) = strChars ("ABCTitle")) ∧
    (∀ s : Str, s ≠ [] →
      (∀ c ∈ clean_filename (some s), isAllowedChar c = true) ∧
      (clean_filename (some s)).length ≤ 100 ∧
      pyStrip (clean_filename (some s)) = clean_filename (some s) ∧
      (clean_filename (some s) = [] →
        clean_title_component (some s) = strChars ("Unknown Title") ∧
        clean_author_component (some s) = strChars ("Unknown Author")) ∧
      (clean_filename (some s) ≠ [] →
        clean_title_component (some s) = clean_filename (some s) ∧
        clean_author_component (some s) = clean_filename (some s))) ∧
    (clean_filename (some []) = strChars ("Unknown") ∧
      clean_filename none = strChars ("Unknown")) := by
  refine ⟨by decide, ?_, by decide, by decide⟩
  intro s hs
  refine ⟨clean_filename_chars s hs, clean_filename_length s hs,
    clean_filename_stripped s hs, ?_, ?_⟩
  · intro h
    simp [clean_title_component, clean_author_component, orPlaceholder, h]
  · intro h
    simp [clean_title_component, clean_author_component, orPlaceholder, h]

/-- C4 counterexample: sanitizing the empty string does not produce the
component placeholder — the code returns the generic `"Unknown"` instead of
`"Unknown Title"` (the empty string is falsy in `clean_filename`). -/
theorem clean_filename_empty_counterexample :
    clean_title_component (some []) = strChars ("Unknown") ∧
    strChars ("Unknown") ≠ strChars ("Unknown Title") := by
  constructor
  · decide
  · decide

/-- Witness for the amended C4 theorem at the concrete input `"A:B*C?<Title>"`. -/
theorem clean_filename_spec_amended_witness :
    (∀ c ∈ clean_filename (some (strChars ("A:B*C?<Title>"))), isAllowedChar c = true) ∧
    (clean_filename (some (strChars ("A:B*C?<Title>")))).length ≤ 100 :=
  ⟨(clean_filename_spec_amended.2.1 (strChars ("A:B*C?<Title>")) (by decide)).1,
   (clean_filename_spec_amended.2.1 (strChars ("A:B*C?<Title>")) (by decide)).2.1⟩

-- ------------------------------------------------------------------
-- title_case (source lines 132-146)
-- ------------------------------------------------------------------

/-- Word characters of the tokenizer regex alternative `[\w']+`
(ASCII model of `\w` plus apostrophe): alphanumerics, underscore, apostrophe. -/
def isWordChar (c : Nat) : Bool := pyIsAlnum c || c == 95 || c == 39

/-- The standalone punctuation alternative `[.,!?;]` of the tokenizer regex. -/
def isPunctTok (c : Nat) : Bool :=
  c == 46 || c == 44 || c == 33 || c == 63 || c == 59

/-- Left-to-right scan of `re.findall(r"[\w']+|[.,!?;]", s)`: maximal runs of
word characters become word tokens, the five punctuation characters become
singleton tokens, every other character is skipped.  `cur` holds the reversed
word run currently being read. -/
def tokAux : Str → Str → List Str
  | [], cur => if cur = [] then [] else [cur.reverse]
  | c :: cs, cur =>
      if isWordChar c then tokAux cs (c :: cur)
      else if cur = [] then
        (if isPunctTok c then [c] :: tokAux cs [] else tokAux cs [])
      else
        cur.reverse :: (if isPunctTok c then [c] :: tokAux cs [] else tokAux cs [])

/-- The tokenizer `re.findall` call of source line 145. -/
def tokenize (s : Str) : List Str := tokAux s []

/-- The small-word exception set of `title_case` (source line 144). -/
def exceptionsList : List Str :=
  [strChars ("a"), strChars ("an"), strChars ("and"), strChars ("as"),
   strChars ("at"), strChars ("but"), strChars ("by"), strChars ("for"),
   strChars ("if"), strChars ("in"), strChars ("of"), strChars ("on"),
   strChars ("or"), strChars ("the"), strChars ("to"), strChars ("with")]

/-- Python `str.capitalize()`: first character uppercased, the rest lowercased. -/
def pyCapitalize (w : Str) : Str :=
  match w with
  | [] => []
  | c :: cs => pyToUpper c :: cs.map pyToLower

/-- The per-token branch of `title_case`'s generator expression
(`word.capitalize() if i == 0 or word not in exceptions else word`),
starting at index `i`. -/
def procFrom (i : Nat) : List Str → List Str
  | [] => []
  | w :: ws =>
      (if i = 0 ∨ w ∉ exceptionsList then pyCapitalize w else w)
        :: procFrom (i + 1) ws

/-- Python `" ".join(ws)`. -/
def joinSpace : List Str → Str
  | [] => []
  | [w] => w
  | w :: x :: ws => w ++ 32 :: joinSpace (x :: ws)

/-- The function `title_case` (source lines 132-146): lowercase the string, tokenize into
words and standalone punctuation, capitalize the first token and every token
not in the exception set, and join with single spaces.  The empty string is
falsy and returned unchanged. -/
def title_case (s : Str) : Str :=
  if s = [] then s
  else joinSpace (procFrom 0 (tokenize (s.map pyToLower)))

example : title_case (strChars ("the theory of everything"))
    = strChars ("The Theory of Everything") := by decide

example : title_case (strChars ("of mice and men"))
    = strChars ("Of Mice and Men") := by decide

/-- A well-formed token: nonempty, and either a pure word-character run or a
single punctuation character. -/
def GoodTok (w : Str) : Prop :=
  w ≠ [] ∧ ((∀ c ∈ w, isWordChar c = true) ∨ (∃ c, w = [c] ∧ isPunctTok c = true))

theorem space_not_word : isWordChar 32 = false := by decide

theorem space_not_punct : isPunctTok 32 = false := by decide

theorem punct_not_word (c : Nat) (h : isPunctTok c = true) :
    isWordChar c = false := by
  simp only [isPunctTok, Bool.or_eq_true, beq_iff_eq] at h
  rcases h with (((h | h) | h) | h) | h <;> subst h <;> decide

theorem punct_upper_fix (c : Nat) (h : isPunctTok c = true) :
    pyToUpper c = c := by
  simp only [isPunctTok, Bool.or_eq_true, beq_iff_eq] at h
  rcases h with (((h | h) | h) | h) | h <;> subst h <;> decide

theorem pyToLower_idem (c : Nat) : pyToLower (pyToLower c) = pyToLower c := by
  unfold pyToLower
  split_ifs with h1 h2 <;> omega

theorem pyToLower_pyToUpper_fix (c : Nat) (h : pyToLower c = c) :
    pyToLower (pyToUpper c) = c := by
  unfold pyToLower pyToUpper at *
  split_ifs at * with h1 h2 h3 <;> omega

theorem wordChar_pyToUpper (c : Nat) :
    isWordChar (pyToUpper c) = isWordChar c := by
  rw [Bool.eq_iff_iff]
  simp only [isWordChar, pyIsAlnum, pyToUpper, Bool.or_eq_true, Bool.and_eq_true,
    decide_eq_true_eq, beq_iff_eq]
  split_ifs with h <;> omega

theorem wordChar_pyToLower (c : Nat) :
    isWordChar (pyToLower c) = isWordChar c := by
  rw [Bool.eq_iff_iff]
  simp only [isWordChar, pyIsAlnum, pyToLower, Bool.or_eq_true, Bool.and_eq_true,
    decide_eq_true_eq, beq_iff_eq]
  split_ifs with h <;> omega

/-- Every token produced by the scanner is well-formed. -/
theorem tokAux_good :
    ∀ (s cur : Str), (∀ c ∈ cur, isWordChar c = true) →
      ∀ w ∈ tokAux s cur, GoodTok w := by
  intro s
  induction s with
  | nil =>
      intro cur hcur w hw
      simp only [tokAux] at hw
      by_cases h : cur = []
      · simp [h] at hw
      · rw [if_neg h] at hw
        simp only [List.mem_singleton] at hw
        subst hw
        refine ⟨fun hh => h (by simpa using congrArg List.reverse hh), Or.inl ?_⟩
        intro c hc
        exact hcur c (List.mem_reverse.mp hc)
  | cons x xs ih =>
      intro cur hcur w hw
      simp only [tokAux] at hw
      by_cases hx : isWordChar x
      · rw [if_pos hx] at hw
        refine ih (x :: cur) ?_ w hw
        intro c hc
        rcases List.mem_cons.mp hc with h | h
        · subst h; exact hx
        · exact hcur c h
      · rw [if_neg hx] at hw
        have hrest : ∀ w ∈ (if isPunctTok x then [x] :: tokAux xs [] else tokAux xs []),
            GoodTok w := by
          intro w hw
          by_cases hp : isPunctTok x
          · rw [if_pos hp] at hw
            rcases List.mem_cons.mp hw with h | h
            · subst h; exact ⟨by simp, Or.inr ⟨x, rfl, hp⟩⟩
            · exact ih [] (by simp) w h
          · rw [if_neg hp] at hw
            exact ih [] (by simp) w hw
        by_cases hc : cur = []
        · rw [if_pos hc] at hw
          exact hrest w hw
        · rw [if_neg hc] at hw
          rcases List.mem_cons.mp hw with h | h
          · subst h
            refine ⟨fun hh => hc (by simpa using congrArg List.reverse hh), Or.inl ?_⟩
            intro c hcc
            exact hcur c (List.mem_reverse.mp hcc)
          · exact hrest w h

/-- Every character of every token comes from the scanned string or the
current run. -/
theorem tokAux_chars :
    ∀ (s cur w : Str) (c : Nat), w ∈ tokAux s cur → c ∈ w → c ∈ s ∨ c ∈ cur := by
  intro s
  induction s with
  | nil =>
      intro cur w c hw hc
      simp only [tokAux] at hw
      by_cases h : cur = []
      · simp [h] at hw
      · rw [if_neg h] at hw
        simp only [List.mem_singleton] at hw
        subst hw
        exact Or.inr (List.mem_reverse.mp hc)
  | cons x xs ih =>
      intro cur w c hw hc
      simp only [tokAux] at hw
      by_cases hx : isWordChar x
      · rw [if_pos hx] at hw
        rcases ih (x :: cur) w c hw hc with h | h
        · exact Or.inl (List.mem_cons_of_mem _ h)
        · rcases List.mem_cons.mp h with h | h
          · subst h; exact Or.inl (List.mem_cons_self _ _)
          · exact Or.inr h
      · rw [if_neg hx] at hw
        have hrest : w ∈ (if isPunctTok x then [x] :: tokAux xs [] else tokAux xs []) →
            c ∈ x :: xs ∨ c ∈ cur := by
          intro hw
          by_cases hp : isPunctTok x
          · rw [if_pos hp] at hw
            rcases List.mem_cons.mp hw with h | h
            · subst h
              simp only [List.mem_singleton] at hc
              subst hc
              exact Or.inl (List.mem_cons_self _ _)
            · rcases ih [] w c h hc with h2 | h2
              · exact Or.inl (List.mem_cons_of_mem _ h2)
              · simp at h2
          · rw [if_neg hp] at hw
            rcases ih [] w c hw hc with h2 | h2
            · exact Or.inl (List.mem_cons_of_mem _ h2)
            · simp at h2
        by_cases hcu : cur = []
        · rw [if_pos hcu] at hw
          exact hrest hw
        · rw [if_neg hcu] at hw
          rcases List.mem_cons.mp hw with h | h
          · subst h
            exact Or.inr (List.mem_reverse.mp hc)
          · exact hrest h

/-- Scanning a word-character run accumulates it into the current run. -/
theorem tokAux_word_append :
    ∀ (w s cur : Str), (∀ c ∈ w, isWordChar c = true) →
      tokAux (w ++ s) cur = tokAux s (w.reverse ++ cur) := by
  intro w
  induction w with
  | nil => intro s cur _; simp
  | cons c cs ih =>
      intro s cur hw
      have hc : isWordChar c = true := hw c (List.mem_cons_self _ _)
      have hcs : ∀ d ∈ cs, isWordChar d = true :=
        fun d hd => hw d (List.mem_cons_of_mem _ hd)
      show tokAux (c :: (cs ++ s)) cur = _
      simp only [tokAux, if_pos hc]
      rw [ih s (c :: cur) hcs]
      congr 1
      simp

theorem tokAux_space_cons (s : Str) : tokAux (32 :: s) [] = tokAux s [] := by
  simp [tokAux, space_not_word, space_not_punct]

/-- Tokenizing the space-join of a list of well-formed tokens recovers the
token list. -/
theorem tokenize_joinSpace :
    ∀ ws : List Str, (∀ w ∈ ws, GoodTok w) → tokenize (joinSpace ws) = ws := by
  intro ws
  induction ws with
  | nil => intro _; rfl
  | cons w tl ih =>
      intro h
      have hw : GoodTok w := h w (List.mem_cons_self _ _)
      have htl : ∀ w ∈ tl, GoodTok w := fun w hw => h w (List.mem_cons_of_mem _ hw)
      obtain ⟨hne, hword | ⟨c, rfl, hp⟩⟩ := hw
      · -- word token
        cases tl with
        | nil =>
            show tokAux (joinSpace [w]) [] = [w]
            have : tokAux (w ++ []) [] = tokAux [] (w.reverse ++ []) :=
              tokAux_word_append w [] [] hword
            rw [List.append_nil, List.append_nil] at this
            show tokAux w [] = [w]
            rw [this]
            simp only [tokAux]
            rw [if_neg (by simpa using hne)]
            simp
        | cons x tl' =>
            show tokAux (w ++ 32 :: joinSpace (x :: tl')) [] = w :: x :: tl'
            rw [tokAux_word_append w _ [] hword, List.append_nil]
            simp only [tokAux, space_not_word, Bool.false_eq_true, if_false,
              space_not_punct]
            rw [if_neg (by simpa using hne)]
            rw [List.reverse_reverse]
            exact congrArg (w :: ·) (ih htl)
      · -- punctuation token
        have hcw : isWordChar c = false := punct_not_word c hp
        have hstep : ∀ s : Str, tokAux (c :: s) [] = [c] :: tokAux s [] := by
          intro s
          simp [tokAux, hcw, hp]
        cases tl with
        | nil =>
            show tokAux [c] [] = [[c]]
            simp [tokAux, hcw, hp]
        | cons x tl' =>
            show tokAux (c :: 32 :: joinSpace (x :: tl')) [] = [c] :: x :: tl'
            rw [hstep, tokAux_space_cons]
            exact congrArg ([c] :: ·) (ih htl)

theorem map_pyToLower_fixed (w : Str) (h : ∀ c ∈ w, pyToLower c = c) :
    w.map pyToLower = w := by
  induction w with
  | nil => rfl
  | cons c cs ih =>
      simp only [List.map_cons]
      rw [h c (List.mem_cons_self _ _), ih (fun d hd => h d (List.mem_cons_of_mem _ hd))]

/-- Lowercasing undoes `capitalize` on a token whose characters are
lower-fixed. -/
theorem pyCapitalize_map_lower (w : Str) (h : ∀ c ∈ w, pyToLower c = c) :
    (pyCapitalize w).map pyToLower = w := by
  cases w with
  | nil => rfl
  | cons c cs =>
      simp only [pyCapitalize, List.map_cons]
      have hcs : ∀ d ∈ cs, pyToLower d = d := fun d hd => h d (List.mem_cons_of_mem _ hd)
      rw [pyToLower_pyToUpper_fix c (h c (List.mem_cons_self _ _))]
      rw [map_pyToLower_fixed cs hcs, map_pyToLower_fixed cs hcs]

/-- Python `capitalize` preserves token well-formedness. -/
theorem pyCapitalize_good (w : Str) (h : GoodTok w) : GoodTok (pyCapitalize w) := by
  obtain ⟨hne, hword | ⟨c, rfl, hp⟩⟩ := h
  · cases w with
    | nil => exact absurd rfl hne
    | cons c cs =>
        refine ⟨by simp [pyCapitalize], Or.inl ?_⟩
        intro d hd
        simp only [pyCapitalize] at hd
        rcases List.mem_cons.mp hd with h | h
        · subst h
          rw [wordChar_pyToUpper]
          exact hword c (List.mem_cons_self _ _)
        · obtain ⟨e, he, rfl⟩ := List.mem_map.mp h
          rw [wordChar_pyToLower]
          exact hword e (List.mem_cons_of_mem _ he)
  · rw [show pyCapitalize [c] = [pyToUpper c] from rfl, punct_upper_fix c hp]
    exact ⟨by simp, Or.inr ⟨c, rfl, hp⟩⟩

/-- Lowercasing the processed tokens recovers the original (lower-fixed)
tokens. -/
theorem procFrom_map_lower :
    ∀ (ws : List Str) (i : Nat), (∀ w ∈ ws, ∀ c ∈ w, pyToLower c = c) →
      (procFrom i ws).map (fun w => w.map pyToLower) = ws := by
  intro ws
  induction ws with
  | nil => intro i _; rfl
  | cons w tl ih =>
      intro i h
      have hw : ∀ c ∈ w, pyToLower c = c := h w (List.mem_cons_self _ _)
      have htl : ∀ w ∈ tl, ∀ c ∈ w, pyToLower c = c :=
        fun w hw => h w (List.mem_cons_of_mem _ hw)
      simp only [procFrom, List.map_cons]
      rw [ih (i + 1) htl]
      congr 1
      by_cases hcond : i = 0 ∨ w ∉ exceptionsList
      · rw [if_pos hcond]
        exact pyCapitalize_map_lower w hw
      · rw [if_neg hcond]
        exact map_pyToLower_fixed w hw

/-- Processing preserves token well-formedness. -/
theorem procFrom_good :
    ∀ (ws : List Str) (i : Nat), (∀ w ∈ ws, GoodTok w) →
      ∀ w ∈ procFrom i ws, GoodTok w := by
  intro ws
  induction ws with
  | nil => intro i _ w hw; simp [procFrom] at hw
  | cons w tl ih =>
      intro i h w' hw'
      have hw : GoodTok w := h w (List.mem_cons_self _ _)
      have htl : ∀ w ∈ tl, GoodTok w := fun w hw => h w (List.mem_cons_of_mem _ hw)
      simp only [procFrom] at hw'
      rcases List.mem_cons.mp hw' with h2 | h2
      · subst h2
        by_cases hcond : i = 0 ∨ w ∉ exceptionsList
        · rw [if_pos hcond]; exact pyCapitalize_good w hw
        · rw [if_neg hcond]; exact hw
      · exact ih (i + 1) htl w' h2

/-- Lowercasing distributes over the space-join. -/
theorem joinSpace_map_lower :
    ∀ ws : List Str,
      (joinSpace ws).map pyToLower = joinSpace (ws.map (fun w => w.map pyToLower)) := by
  intro ws
  induction ws with
  | nil => rfl
  | cons w tl ih =>
      cases tl with
      | nil => rfl
      | cons x tl' =>
          show (w ++ 32 :: joinSpace (x :: tl')).map pyToLower = _
          rw [List.map_append, List.map_cons]
          rw [show pyToLower 32 = 32 from rfl, ih]
          rfl

/-- C5: title-casing is idempotent, it capitalizes the leading token even when
it is an exception word, and it leaves internal exception words lowercase:
`title_case("the theory of everything") = "The Theory of Everything"` and
`title_case("of mice and men") = "Of Mice and Men"`. -/
theorem title_case_idempotent :
    (∀ s : Str, title_case (title_case s) = title_case s) ∧
    title_case (strChars ("the theory of everything"))
      = strChars ("The Theory of Everything") ∧
    title_case (strChars ("of mice and men")) = strChars ("Of Mice and Men") := by
  refine ⟨?_, by decide, by decide⟩
  intro s
  by_cases hs : s = []
  · simp [title_case, hs]
  · conv_rhs => rw [title_case, if_neg hs]
    conv_lhs => rw [show title_case s = joinSpace (procFrom 0 (tokenize (s.map pyToLower)))
      from by rw [title_case, if_neg hs]]
    set ws := tokenize (s.map pyToLower) with hws
    have hgood : ∀ w ∈ ws, GoodTok w := tokAux_good (s.map pyToLower) [] (by simp)
    have hfix : ∀ w ∈ ws, ∀ c ∈ w, pyToLower c = c := by
      intro w hw c hc
      rcases tokAux_chars (s.map pyToLower) [] w c hw hc with h | h
      · obtain ⟨c₀, _, rfl⟩ := List.mem_map.mp h
        exact pyToLower_idem c₀
      · simp at h
    set out := joinSpace (procFrom 0 ws) with hout
    by_cases ho : out = []
    · rw [title_case, if_pos ho]
    · rw [title_case, if_neg ho]
      have hmap : out.map pyToLower = joinSpace ws := by
        rw [hout, joinSpace_map_lower, procFrom_map_lower ws 0 hfix]
      rw [hmap, tokenize_joinSpace ws hgood]

-- ------------------------------------------------------------------
-- refine_with_llama3 (source lines 93-130)
-- ------------------------------------------------------------------

/-- Index of the first occurrence of `c` in a string, if any. -/
def findIdxOf (c : Nat) : Str → Option Nat
  | [] => none
  | x :: xs => if x = c then some 0 else (findIdxOf c xs).map (· + 1)

/-- Index of the last occurrence of `c` in a string, if any
(Python `str.rfind` when the character occurs). -/
def rfindIdxOf (c : Nat) : Str → Option Nat
  | [] => none
  | x :: xs =>
      match rfindIdxOf c xs with
      | some j => some (j + 1)
      | none => if x = c then some 0 else none

/-- The `re.search` of the greedy, dot-matches-all brace pattern (source line
109): the span from the first opening brace to the last closing brace,
provided the latter comes strictly after the former; otherwise no match. -/
def findBraceSpan (content : Str) : Option Str :=
  match findIdxOf 123 content, rfindIdxOf 125 content with
  | some i, some j =>
      if i < j then some ((content.drop i).take (j - i + 1)) else none
  | _, _ => none

/-- First repair substitution (source line 113).  The replacement text
reproduces the matched text verbatim (a double-quoted key is replaced by the
same double-quoted key), so this substitution is the identity on the string. -/
def requoteQuotedKeys (s : Str) : Str := s

/-- The `replace` of single quotes by double quotes (source line 114). -/
def replaceSingleQuotes (s : Str) : Str :=
  s.map (fun c => if c = 39 then 34 else c)

/-- ASCII model of the regex class `\w`. -/
def isRegexWordChar (c : Nat) : Bool := pyIsAlnum c || c == 95

/-- The key-quoting substitution of source line 115: every maximal run of
word characters that is immediately followed by a colon is wrapped in double
quotes.  `run` holds the reversed word run currently being read. -/
def quoteKeysAux : Str → Str → Str
  | [], run => run.reverse
  | c :: cs, run =>
      if isRegexWordChar c then quoteKeysAux cs (c :: run)
      else if c = 58 ∧ run ≠ [] then
        34 :: run.reverse ++ 34 :: 58 :: quoteKeysAux cs []
      else
        run.reverse ++ c :: quoteKeysAux cs []

def quoteBareKeys (s : Str) : Str := quoteKeysAux s []

/-- One pass of the trailing-comma removal of source line 116: a comma
followed by optional whitespace and a closing brace is replaced by the
closing brace.  `pending` is `some ws` (with `ws` reversed) while a comma and
the whitespace `ws` after it have been read but not yet resolved. -/
def dropCommasAux : Str → Option Str → Str
  | [], none => []
  | [], some ws => 44 :: ws.reverse
  | c :: cs, none =>
      if c = 44 then dropCommasAux cs (some [])
      else c :: dropCommasAux cs none
  | c :: cs, some ws =>
      if c = 125 then 125 :: dropCommasAux cs none
      else if isPySpace c then dropCommasAux cs (some (c :: ws))
      else if c = 44 then 44 :: ws.reverse ++ dropCommasAux cs (some [])
      else 44 :: ws.reverse ++ c :: dropCommasAux cs none

/-- The trailing-comma removal of source line 116. -/
def dropTrailingCommas (s : Str) : Str := dropCommasAux s none

/-- The JSON repair pipeline of source lines 113-116, in source order. -/
def repairJson (span : Str) : Str :=
  dropTrailingCommas (quoteBareKeys (replaceSingleQuotes (requoteQuotedKeys span)))

/-- The values `json.loads` can produce.  Numbers are modelled as integers
(no claim involves floats); objects are association lists. -/
inductive Json where
  | null : Json
  | bool (b : Bool) : Json
  | num (n : Int) : Json
  | str (s : Str) : Json
  | arr (elts : List Json) : Json
  | obj (fields : List (Str × Json)) : Json

/-- Python truthiness of a parsed JSON value. -/
def jTruthy : Json → Bool
  | .null => false
  | .bool b => b
  | .num n => if n = 0 then false else true
  | .str s => !s.isEmpty
  | .arr l => !l.isEmpty
  | .obj l => !l.isEmpty

/-- Decimal digit string of a natural number, with explicit recursion fuel so
the kernel can evaluate it (the fuel is immaterial as long as it exceeds the
number, see `natDigitsAux_fuel`). -/
def natDigitsAux (fuel : Nat) (n : Nat) : Str :=
  match fuel with
  | 0 => []
  | fuel + 1 => if n < 10 then [48 + n] else natDigitsAux fuel (n / 10) ++ [48 + n % 10]

/-- Decimal digit string of a natural number. -/
def natDigits (n : Nat) : Str := natDigitsAux (n + 1) n

/-- Python `str()` of an integer. -/
def intStr (i : Int) : Str :=
  if i < 0 then 45 :: natDigits i.natAbs else natDigits i.toNat

/-- Python `str()` of a parsed JSON value.  The scalar cases are the exact
Python renderings; the container cases are abbreviated reprs, which no claim
and no concrete input in this development ever evaluates. -/
def pyStrJson : Json → Str
  | .null => strChars ("None")
  | .bool true => strChars ("True")
  | .bool false => strChars ("False")
  | .num n => intStr n
  | .str s => s
  | .arr _ => strChars ("[...]")
  | .obj _ => strChars ("\x7b...\x7d")

/-- The `result.get(key)` lookup on the parsed dict (source lines 119-120). -/
def jsonGet (fields : List (Str × Json)) (k : Str) : Option Json :=
  (fields.find? (fun kv => decide (kv.1 = k))).map (fun kv => kv.2)

/-- Python `v == "null"` for a parsed JSON value: true exactly when the value
is the string `"null"` (a non-string value never equals a string). -/
def isNullLiteral : Json → Bool
  | .str s => decide (s = strChars ("null"))
  | _ => false

/-- The expression `str(v) if v and v != "null" else None` of source lines 123-124. -/
def pyNormField (v : Option Json) : Option Str :=
  match v with
  | none => none
  | some j =>
      if jTruthy j = true ∧ isNullLiteral j = false then some (pyStrJson j)
      else none

/-- The expression `title_case(v) if v else None` of source line 126. -/
def titleCaseField (v : Option Str) : Option Str :=
  match v with
  | none => none
  | some s => if s = [] then none else some (title_case s)

def titleKey : Str := strChars ("title")

def authorKey : Str := strChars ("author")

/-- The response-parsing part of `refine_with_llama3` (source lines 109-127).
`loads` models `json.loads`: `none` when the library would raise, in which
case the surrounding `try` yields `(None, None)`.  A successful parse that is
not an object makes `result.get` raise `AttributeError`, caught by the same
`except`, also yielding `(None, None)`. -/
def parse_response (loads : Str → Option Json) (content : Str) :
    Option Str × Option Str :=
  match findBraceSpan content with
  | none => (none, none)
  | some span =>
      match loads (repairJson span) with
      | none => (none, none)
      | some (Json.obj fields) =>
          (titleCaseField (pyNormField (jsonGet fields titleKey)),
           titleCaseField (pyNormField (jsonGet fields authorKey)))
      | some _ => (none, none)

/-- The fixed instruction prefix of the prompt (source line 106). -/
def promptHead : Str :=
  strChars ("Given the following text, extract the title and author. If you can\x27t determine either, return null. Respond in JSON format with \x27title\x27 and \x27author\x27 keys:\n\n")

/-- The full prompt: the fixed prefix followed by `text[:500]` (source line
106). -/
def promptOf (text : Str) : Str := promptHead ++ text.take 500

/-- The function `refine_with_llama3` (source lines 93-130).  `chat` models `ollama.chat`:
`none` when the call raises, in which case the `except` yields `(None, None)`. -/
def refine_with_llama3 (chat : Str → Option Str) (loads : Str → Option Json)
    (text : Str) : Option Str × Option Str :=
  if text = [] then (none, none)
  else
    match chat (promptOf text) with
    | none => (none, none)
    | some content => parse_response loads content

-- Repair-pipeline sanity check: unquoted keys and single-quoted values are
-- normalized into strict JSON before the (oracle) `json.loads` sees them.
example :
    repairJson (strChars ("\x7btitle: \x27deep learning\x27, author: \x27jane doe\x27\x7d"))
      = strChars ("\x7b\"title\": \"deep learning\", \"author\": \"jane doe\"\x7d") := by
  decide

example :
    parse_response
      (fun s =>
        if s = strChars ("\x7b\"title\": \"deep learning\", \"author\": \"jane doe\"\x7d")
        then some (Json.obj
          [(titleKey, Json.str (strChars ("deep learning"))),
           (authorKey, Json.str (strChars ("jane doe")))])
        else none)
      (strChars ("Sure! \x7btitle: \x27deep learning\x27, author: \x27jane doe\x27\x7d"))
      = (some (strChars ("Deep Learning")), some (strChars ("Jane Doe"))) := by
  decide

/-- C8: with empty text the field inferencer short-circuits to `(None, None)`
for every model oracle (the model is not consulted); for any text, the prompt
submitted to the model is the fixed instruction prefix followed by exactly
`text[:500]` — a prefix of the text of length at most 500 — and with nonempty
text the result is determined by the model's answer to that prompt alone. -/
theorem refine_empty_and_truncation :
    (∀ chat loads, refine_with_llama3 chat loads [] = (none, none)) ∧
    (∀ text : Str, promptOf text = promptHead ++ text.take 500 ∧
      (text.take 500).length ≤ 500 ∧ text.take 500 ++ text.drop 500 = text) ∧
    (∀ chat loads (text : Str), text ≠ [] →
      refine_with_llama3 chat loads text =
        match chat (promptOf text) with
        | none => (none, none)
        | some content => parse_response loads content) := by
  refine ⟨fun chat loads => rfl, ?_, ?_⟩
  · intro text
    exact ⟨rfl, List.length_take_le 500 text, List.take_append_drop _ _⟩
  · intro chat loads text h
    rw [refine_with_llama3, if_neg h]

/-- Witness for C8's nonempty-text conjunct at a concrete input. -/
theorem refine_empty_and_truncation_witness :
    refine_with_llama3 (fun _ => none) (fun _ => none) (strChars ("x"))
      = (none, none) := by
  have h := refine_empty_and_truncation.2.2 (fun _ => none) (fun _ => none)
    (strChars ("x")) (by decide)
  exact h

/-- C9: the tolerant parser returns `(None, None)` when the raw response has
no brace span, and when the repaired span fails to parse as JSON (no retry);
and a JSON `null` or the literal string `"null"` in the title or author
position is treated exactly like an absent field. -/
theorem parse_response_nulls :
    (∀ loads content, findBraceSpan content = none →
      parse_response loads content = (none, none)) ∧
    (∀ loads content span, findBraceSpan content = some span →
      loads (repairJson span) = none →
      parse_response loads content = (none, none)) ∧
    (∀ (loads : Str → Option Json) content span fields,
      findBraceSpan content = some span →
      loads (repairJson span) = some (Json.obj fields) →
      ((jsonGet fields titleKey = none ∨ jsonGet fields titleKey = some Json.null ∨
          jsonGet fields titleKey = some (Json.str (strChars ("null")))) →
        (parse_response loads content).1 = none) ∧
      ((jsonGet fields authorKey = none ∨ jsonGet fields authorKey = some Json.null ∨
          jsonGet fields authorKey = some (Json.str (strChars ("null")))) →
        (parse_response loads content).2 = none)) := by
  have hnull : ∀ v, (v = none ∨ v = some Json.null ∨
      v = some (Json.str (strChars ("null")))) →
      titleCaseField (pyNormField v) = none := by
    intro v hv
    rcases hv with rfl | rfl | rfl
    · rfl
    · rfl
    · simp [pyNormField, isNullLiteral, titleCaseField]
  refine ⟨?_, ?_, ?_⟩
  · intro loads content h
    simp [parse_response, h]
  · intro loads content span hspan hloads
    simp [parse_response, hspan, hloads]
  · intro loads content span fields hspan hloads
    constructor
    · intro hget
      simp only [parse_response, hspan, hloads]
      exact hnull _ hget
    · intro hget
      simp only [parse_response, hspan, hloads]
      exact hnull _ hget

/-- Witness for C9 at concrete inputs: a brace-free response parses to
`(None, None)`, and a parsed object with a JSON `null` title and the string
`"null"` author yields absent fields on both sides. -/
theorem parse_response_nulls_witness :
    parse_response (fun _ => none) (strChars ("no json here")) = (none, none) ∧
    (parse_response
        (fun _ => some (Json.obj [(titleKey, Json.null),
          (authorKey, Json.str (strChars ("null")))]))
        (strChars ("\x7b\x7d"))).1 = none ∧
    (parse_response
        (fun _ => some (Json.obj [(titleKey, Json.null),
          (authorKey, Json.str (strChars ("null")))]))
        (strChars ("\x7b\x7d"))).2 = none := by
  refine ⟨parse_response_nulls.1 (fun _ => none) (strChars ("no json here")) (by decide),
    (parse_response_nulls.2.2
      (fun _ => some (Json.obj [(titleKey, Json.null),
        (authorKey, Json.str (strChars ("null")))]))
      (strChars ("\x7b\x7d")) (strChars ("\x7b\x7d"))
      [(titleKey, Json.null), (authorKey, Json.str (strChars ("null")))] rfl rfl).1 ?_,
    (parse_response_nulls.2.2
      (fun _ => some (Json.obj [(titleKey, Json.null),
        (authorKey, Json.str (strChars ("null")))]))
      (strChars ("\x7b\x7d")) (strChars ("\x7b\x7d"))
      [(titleKey, Json.null), (authorKey, Json.str (strChars ("null")))] rfl rfl).2 ?_⟩
  · right; left; rfl
  · right; right; rfl

-- ------------------------------------------------------------------
-- Paths, the filesystem, and rename_pdf (source lines 160-192, 213-217)
-- ------------------------------------------------------------------

/-- POSIX `os.path.basename`: the part after the last slash. -/
def basename (p : Str) : Str :=
  match rfindIdxOf 47 p with
  | none => p
  | some i => p.drop (i + 1)

/-- The `rstrip(sep)` step of `os.path.dirname`. -/
def rstripSlashes (s : Str) : Str := (s.reverse.dropWhile (fun c => c == 47)).reverse

/-- POSIX `os.path.dirname`: everything up to the last slash, with trailing
slashes stripped unless the prefix consists only of slashes. -/
def dirname (p : Str) : Str :=
  match rfindIdxOf 47 p with
  | none => []
  | some i =>
      let head := p.take (i + 1)
      if head.any (fun c => !(c == 47)) then rstripSlashes head else head

/-- POSIX `os.path.join` for two components. -/
def joinPath (a b : Str) : Str :=
  if b.head? = some 47 then b
  else if a = [] ∨ a.getLast? = some 47 then a ++ b
  else a ++ 47 :: b

/-- POSIX `os.path.splitext`: split at the last dot, provided it lies after
the last slash and a non-dot character precedes it within the basename. -/
def splitext (p : Str) : Str × Str :=
  match rfindIdxOf 46 p with
  | none => (p, [])
  | some d =>
      let s := match rfindIdxOf 47 p with | none => 0 | some i => i + 1
      if s ≤ d ∧ ((p.drop s).take (d - s)).any (fun c => !(c == 46)) then
        (p.take d, p.drop d)
      else (p, [])

/-- The candidate name of source line 183: base, underscore, decimal counter, extension. -/
def suffixCand (base ext : Str) (counter : Nat) : Str :=
  base ++ 95 :: natDigits counter ++ ext

/-- The probe loop of source lines 182-184: starting at `counter`, return the
first candidate (base, underscore, counter, extension) that does not exist.  `fuel` bounds the
recursion; `files.length + 1` always suffices because the candidates are
pairwise distinct (see `probeFrom_spec`). -/
def probeFrom (files : List Str) (base ext : Str) : Nat → Nat → Str
  | counter, 0 => suffixCand base ext counter
  | counter, fuel + 1 =>
      if suffixCand base ext counter ∈ files then
        probeFrom files base ext (counter + 1) fuel
      else suffixCand base ext counter

/-- The collision-resolution block of source lines 180-185: keep the
candidate path if it does not exist, otherwise probe `_1`, `_2`, … before the
extension. -/
def resolveCollision (files : List Str) (p : Str) : Str :=
  if p ∈ files then
    probeFrom files (splitext p).1 (splitext p).2 1 (files.length + 1)
  else p

/-- The filesystem state: the existing paths (`os.path.exists`), and the
paths on which `os.rename` raises `OSError` (e.g. a permission error). -/
structure FS where
  files : List Str
  failing : List Str
deriving DecidableEq

/-- The call `os.rename(old, new)`: raises on the failing paths, otherwise moves the
file from `old` to `new`. -/
def osRename (fs : FS) (old new : Str) : Except Unit FS :=
  if old ∈ fs.failing then .error ()
  else .ok { fs with files := new :: fs.files.erase old }

/-- One input document: its path, and the outcome of `extract_text_from_pdf`
(source lines 56-91) for it — `none` exactly when `is_pdf_encrypted` reports
the document encrypted (source lines 66-67), otherwise the extracted text
(possibly one of the placeholder strings of lines 76, 88, 91).  The
extraction itself is pdfplumber/PyPDF2 I/O on the file's bytes, so its result
enters the model as this per-document oracle value. -/
structure Doc where
  path : Str
  extracted : Option Str
deriving DecidableEq

/-- One row of the report — the tuple returned by `rename_pdf` (source line
192): original basename, raw author, raw title, new basename.  The author
and title slots are optional, as in the source annotation `str | None`. -/
structure Row where
  orig : Str
  author : Option Str
  title : Option Str
  newName : Str
deriving DecidableEq

/-- The readable-document branch of `rename_pdf` (source lines 175-192). -/
def rename_readable (chat : Str → Option Str) (loads : Str → Option Json)
    (fs : FS) (path text : Str) : Except Unit (FS × Row) :=
  let ta := refine_with_llama3 chat loads text
  let ctitle := clean_title_component ta.1
  let cauthor := clean_author_component ta.2
  let new_name := cauthor ++ strChars (" - ") ++ ctitle ++ strChars (".pdf")
  let new_path := resolveCollision fs.files (joinPath (dirname path) new_name)
  if cauthor ≠ strChars ("Unknown") ∨ ctitle ≠ strChars ("Unknown Title") then
    match osRename fs path new_path with
    | .error e => .error e
    | .ok fs' => .ok (fs', ⟨basename path, ta.2, ta.1, basename new_path⟩)
  else
    .ok (fs, ⟨basename path, ta.2, ta.1, basename path⟩)

/-- The function `rename_pdf` (source lines 160-192), over the filesystem state `fs` and
the model oracles. -/
def rename_pdf (chat : Str → Option Str) (loads : Str → Option Json)
    (fs : FS) (d : Doc) : Except Unit (FS × Row) :=
  match d.extracted with
  | none =>
      .ok (fs, ⟨basename d.path, some (strChars ("Encrypted")),
        some (strChars ("Encrypted")), basename d.path⟩)
  | some text => rename_readable chat loads fs d.path text

/-- The per-file loop of `main` (source lines 213-217): strictly sequential,
with no exception handling around `rename_pdf`, so an error aborts all
remaining files. -/
def processAll (chat : Str → Option Str) (loads : Str → Option Json) :
    FS → List Doc → Except Unit (FS × List Row)
  | fs, [] => .ok (fs, [])
  | fs, d :: ds =>
      match rename_pdf chat loads fs d with
      | .error e => .error e
      | .ok (fs', row) =>
          match processAll chat loads fs' ds with
          | .error e => .error e
          | .ok (fs'', rows) => .ok (fs'', row :: rows)

/-- Decidable equality for `Except` results, used to evaluate the embedded
pipeline at concrete inputs. -/
instance {e a : Type} [DecidableEq e] [DecidableEq a] : DecidableEq (Except e a)
  | .error x, .error y =>
      if h : x = y then Decidable.isTrue (congrArg Except.error h)
      else Decidable.isFalse (fun hh => h (Except.error.inj hh))
  | .error _, .ok _ => Decidable.isFalse (fun hh => Except.noConfusion hh)
  | .ok _, .error _ => Decidable.isFalse (fun hh => Except.noConfusion hh)
  | .ok x, .ok y =>
      if h : x = y then Decidable.isTrue (congrArg Except.ok h)
      else Decidable.isFalse (fun hh => h (Except.ok.inj hh))

/-- C7: for a document detected as encrypted, processing short-circuits — the
reported author and title are both the literal "Encrypted", the filesystem is
untouched (no rename), the reported final filename is the original basename,
and the result does not depend on the model oracles (no model call). -/
theorem encrypted_short_circuit (chat : Str → Option Str)
    (loads : Str → Option Json) (fs : FS) (d : Doc)
    (h : d.extracted = none) :
    rename_pdf chat loads fs d =
      .ok (fs, ⟨basename d.path, some (strChars ("Encrypted")),
        some (strChars ("Encrypted")), basename d.path⟩) := by
  simp [rename_pdf, h]

/-- Witness for C7 at a concrete encrypted document. -/
theorem encrypted_short_circuit_witness :
    rename_pdf (fun _ => none) (fun _ => none)
      ⟨[strChars ("/docs/locked.pdf")], []⟩ ⟨strChars ("/docs/locked.pdf"), none⟩ =
      .ok (⟨[strChars ("/docs/locked.pdf")], []⟩,
        ⟨strChars ("locked.pdf"), some (strChars ("Encrypted")),
         some (strChars ("Encrypted")), strChars ("locked.pdf")⟩) := by
  have h := encrypted_short_circuit (fun _ => none) (fun _ => none)
    ⟨[strChars ("/docs/locked.pdf")], []⟩ ⟨strChars ("/docs/locked.pdf"), none⟩ rfl
  exact h.trans (by decide)

/-- C1 (code bug): a readable document whose inference yields no fields at
all — title and author both absent — is nevertheless renamed.  Both
components sanitize to "Unknown" (the falsy-input placeholder of
`clean_filename`), so the commit condition of source line 187
(`clean_author != "Unknown" or clean_title != "Unknown Title"`) is satisfied
through its second disjunct by the mismatched placeholder, `os.rename` runs,
and the file ends up as "Unknown - Unknown.pdf" with that name reported —
contradicting the claim and the source's own comment on line 190 ("Keep the
original name if we couldn't extract meaningful info"). -/
theorem rename_pdf_renames_when_both_unknown :
    rename_pdf (fun _ => none) (fun _ => none)
      ⟨[strChars ("/docs/u.pdf")], []⟩
      ⟨strChars ("/docs/u.pdf"), some (strChars ("some text"))⟩ =
      .ok (⟨[strChars ("/docs/Unknown - Unknown.pdf")], []⟩,
        ⟨strChars ("u.pdf"), none, none, strChars ("Unknown - Unknown.pdf")⟩) ∧
    (refine_with_llama3 (fun _ => none) (fun _ => none) (strChars ("some text"))
      = (none, none)) := by
  constructor
  · decide
  · decide

/-- C3 counterexample: a readable document whose model response contains no
JSON yields a report row whose author and title are `None`, not a placeholder
string — the row's fields can be absent. -/
theorem row_fields_absent_counterexample :
    rename_pdf (fun _ => some (strChars ("I cannot help with that")))
      (fun _ => none) ⟨[strChars ("/lib/x.pdf")], []⟩
      ⟨strChars ("/lib/x.pdf"), some (strChars ("hello"))⟩ =
      .ok (⟨[strChars ("/lib/Unknown - Unknown.pdf")], []⟩,
        ⟨strChars ("x.pdf"), none, none, strChars ("Unknown - Unknown.pdf")⟩) := by
  decide

/-- Amended C3: the report row of an encrypted document carries the
"Encrypted" placeholders, but the row of a readable document carries the raw
optional inference output — absent (`None`) fields when inference fails; the
"Unknown…" placeholders appear only inside the synthesized filename, never in
the row's author/title slots. -/
theorem row_fields_amended (chat : Str → Option Str) (loads : Str → Option Json)
    (fs : FS) (d : Doc) (text : Str) (fs' : FS) (row : Row)
    (hx : d.extracted = some text)
    (h : rename_pdf chat loads fs d = .ok (fs', row)) :
    row.orig = basename d.path ∧
    row.title = (refine_with_llama3 chat loads text).1 ∧
    row.author = (refine_with_llama3 chat loads text).2 := by
  rw [rename_pdf, hx] at h
  simp only [rename_readable] at h
  by_cases hcond : clean_author_component (refine_with_llama3 chat loads text).2
      ≠ strChars ("Unknown") ∨
      clean_title_component (refine_with_llama3 chat loads text).1
      ≠ strChars ("Unknown Title")
  · rw [if_pos hcond] at h
    cases hos : osRename fs d.path (resolveCollision fs.files
        (joinPath (dirname d.path)
          (clean_author_component (refine_with_llama3 chat loads text).2 ++
            strChars (" - ") ++
            clean_title_component (refine_with_llama3 chat loads text).1 ++
            strChars (".pdf")))) with
    | error e =>
        rw [hos] at h
        exact absurd h (by simp)
    | ok fs2 =>
        rw [hos] at h
        simp only [Except.ok.injEq, Prod.mk.injEq] at h
        rw [← h.2]
        exact ⟨rfl, rfl, rfl⟩
  · rw [if_neg hcond] at h
    simp only [Except.ok.injEq, Prod.mk.injEq] at h
    rw [← h.2]
    exact ⟨rfl, rfl, rfl⟩

/-- Witness for the amended C3 theorem at a concrete readable document. -/
theorem row_fields_amended_witness :
    (strChars ("w.pdf") : Str) = basename (strChars ("/w/w.pdf")) ∧
    (none : Option Str) =
      (refine_with_llama3 (fun _ => none) (fun _ => none) (strChars ("words"))).1 ∧
    (none : Option Str) =
      (refine_with_llama3 (fun _ => none) (fun _ => none) (strChars ("words"))).2 := by
  have h := row_fields_amended (fun _ => none) (fun _ => none)
    ⟨[strChars ("/w/w.pdf")], []⟩ ⟨strChars ("/w/w.pdf"), some (strChars ("words"))⟩
    (strChars ("words"))
    ⟨[strChars ("/w/Unknown - Unknown.pdf")], []⟩
    ⟨strChars ("w.pdf"), none, none, strChars ("Unknown - Unknown.pdf")⟩
    rfl (by decide)
  exact h

/-- C2 counterexample: with two readable documents in the batch and a rename
failure on the first, the orchestrator loop does not record a row for the
failing file and does not process the second file at all — the whole run
aborts with the propagated error. -/
theorem rename_failure_aborts_counterexample :
    processAll (fun _ => none) (fun _ => none)
      ⟨[strChars ("/b/one.pdf"), strChars ("/b/two.pdf")], [strChars ("/b/one.pdf")]⟩
      [⟨strChars ("/b/one.pdf"), some (strChars ("t"))⟩,
       ⟨strChars ("/b/two.pdf"), some (strChars ("t"))⟩] = .error () := by
  decide

/-- Amended C2: there is no exception handling in the per-file loop of
`main` — a filesystem rename failure propagates out of `rename_pdf` and
aborts the loop: the failing file yields no report row and the remaining
files are not processed. -/
theorem rename_failure_aborts (chat : Str → Option Str)
    (loads : Str → Option Json) (fs : FS) (d : Doc) (ds : List Doc) (e : Unit)
    (h : rename_pdf chat loads fs d = .error e) :
    processAll chat loads fs (d :: ds) = .error e := by
  simp [processAll, h]

/-- Witness for the amended C2 theorem at a concrete failing batch. -/
theorem rename_failure_aborts_witness :
    processAll (fun _ => none) (fun _ => none)
      ⟨[strChars ("/c/a.pdf"), strChars ("/c/b.pdf")], [strChars ("/c/a.pdf")]⟩
      [⟨strChars ("/c/a.pdf"), some (strChars ("t"))⟩,
       ⟨strChars ("/c/b.pdf"), some (strChars ("t"))⟩] = .error () := by
  exact rename_failure_aborts (fun _ => none) (fun _ => none)
    ⟨[strChars ("/c/a.pdf"), strChars ("/c/b.pdf")], [strChars ("/c/a.pdf")]⟩
    ⟨strChars ("/c/a.pdf"), some (strChars ("t"))⟩
    [⟨strChars ("/c/b.pdf"), some (strChars ("t"))⟩] () (by decide)

-- ------------------------------------------------------------------
-- Collision resolution (source lines 180-185)
-- ------------------------------------------------------------------

theorem natDigitsAux_fuel :
    ∀ (fuel fuel' n : Nat), n < fuel → n < fuel' →
      natDigitsAux fuel n = natDigitsAux fuel' n := by
  intro fuel
  induction fuel with
  | zero => intro fuel' n h _; omega
  | succ f ih =>
      intro fuel' n h h'
      cases fuel' with
      | zero => omega
      | succ f' =>
          simp only [natDigitsAux]
          by_cases h10 : n < 10
          · rw [if_pos h10, if_pos h10]
          · rw [if_neg h10, if_neg h10]
            have hlt : n / 10 < n := Nat.div_lt_self (by omega) (by omega)
            rw [ih f' (n / 10) (by omega) (by omega)]

/-- The defining recursion of `natDigits`, independent of the fuel. -/
theorem natDigits_def (n : Nat) :
    natDigits n = if n < 10 then [48 + n] else natDigits (n / 10) ++ [48 + n % 10] := by
  by_cases h10 : n < 10
  · rw [if_pos h10]
    show natDigitsAux (n + 1) n = _
    simp only [natDigitsAux]
    rw [if_pos h10]
  · rw [if_neg h10]
    show natDigitsAux (n + 1) n = _
    simp only [natDigitsAux]
    rw [if_neg h10]
    have hlt : n / 10 < n := Nat.div_lt_self (by omega) (by omega)
    rw [natDigitsAux_fuel n (n / 10 + 1) (n / 10) (by omega) (by omega)]
    rfl

/-- Numeric value of a digit string (base 10, ASCII digits). -/
def digitsVal (s : Str) : Nat := s.foldl (fun a c => a * 10 + (c - 48)) 0

theorem digitsVal_natDigits (n : Nat) : digitsVal (natDigits n) = n := by
  induction n using Nat.strong_induction_on with
  | _ n ih =>
      rw [natDigits_def]
      by_cases h10 : n < 10
      · rw [if_pos h10]
        simp [digitsVal]
      · rw [if_neg h10]
        have hlt : n / 10 < n := Nat.div_lt_self (by omega) (by omega)
        have hv := ih (n / 10) hlt
        unfold digitsVal at hv ⊢
        rw [List.foldl_append, hv]
        simp only [List.foldl_cons, List.foldl_nil]
        have hmod : n % 10 < 10 := Nat.mod_lt _ (by omega)
        have := Nat.div_add_mod n 10
        omega

theorem natDigits_inj (a b : Nat) (h : natDigits a = natDigits b) : a = b := by
  have h2 := congrArg digitsVal h
  rwa [digitsVal_natDigits, digitsVal_natDigits] at h2

theorem suffixCand_inj (base ext : Str) (j k : Nat)
    (h : suffixCand base ext j = suffixCand base ext k) : j = k := by
  unfold suffixCand at h
  have h1 : base ++ 95 :: natDigits j = base ++ 95 :: natDigits k :=
    List.append_cancel_right h
  have h2 : (95 : Nat) :: natDigits j = 95 :: natDigits k :=
    List.append_cancel_left h1
  have h3 : natDigits j = natDigits k := by injection h2
  exact natDigits_inj j k h3

/-- Among `files.length + 1` consecutive suffix candidates, at least one does
not exist: the candidates are pairwise distinct, so they cannot all be among
the existing files. -/
theorem exists_fresh_cand (files : List Str) (base ext : Str) (start : Nat) :
    ∃ j, j ≤ files.length ∧ suffixCand base ext (start + j) ∉ files := by
  by_contra hcon
  push_neg at hcon
  have hinj : Function.Injective (fun j : Nat => suffixCand base ext (start + j)) := by
    intro a b hab
    have := suffixCand_inj base ext (start + a) (start + b) hab
    omega
  have hsub : ((List.range (files.length + 1)).map
      (fun j => suffixCand base ext (start + j))) ⊆ files := by
    intro x hx
    obtain ⟨j, hj, rfl⟩ := List.mem_map.mp hx
    exact hcon j (Nat.lt_succ_iff.mp (List.mem_range.mp hj))
  have hnodup : ((List.range (files.length + 1)).map
      (fun j => suffixCand base ext (start + j))).Nodup :=
    (List.nodup_range _).map hinj
  have hle := (List.subperm_of_subset hnodup hsub).length_le
  simp at hle

/-- Correctness of the probe loop: with enough fuel it returns the first
non-existing candidate at or after `counter`. -/
theorem probeFrom_spec (files : List Str) (base ext : Str) :
    ∀ (fuel counter : Nat),
      (∃ j, j < fuel ∧ suffixCand base ext (counter + j) ∉ files) →
      ∃ k, counter ≤ k ∧
        probeFrom files base ext counter fuel = suffixCand base ext k ∧
        suffixCand base ext k ∉ files ∧
        ∀ i, counter ≤ i → i < k → suffixCand base ext i ∈ files := by
  intro fuel
  induction fuel with
  | zero =>
      intro counter h
      obtain ⟨j, hj, _⟩ := h
      omega
  | succ f ih =>
      intro counter h
      obtain ⟨j, hj, hfree⟩ := h
      simp only [probeFrom]
      by_cases hc : suffixCand base ext counter ∈ files
      · rw [if_pos hc]
        have hj0 : j ≠ 0 := by
          rintro rfl
          exact hfree hc
        obtain ⟨k, hk1, hk2, hk3, hk4⟩ := ih (counter + 1)
          ⟨j - 1, by omega, by
            have heq : counter + 1 + (j - 1) = counter + j := by omega
            rw [heq]; exact hfree⟩
        refine ⟨k, by omega, hk2, hk3, ?_⟩
        intro i hi1 hi2
        by_cases hic : i = counter
        · subst hic; exact hc
        · exact hk4 i (by omega) hi2
      · rw [if_neg hc]
        exact ⟨counter, Nat.le_refl _, rfl, hc, fun i h1 h2 => absurd (by omega : counter < counter) (by omega)⟩

/-- The resolved path never collides with an existing file; an unused
candidate is kept as is; a used candidate is replaced by the first unused
`_k` suffix candidate (sequential probing from 1). -/
theorem resolveCollision_spec (files : List Str) (p : Str) :
    resolveCollision files p ∉ files ∧
    (p ∉ files → resolveCollision files p = p) ∧
    (p ∈ files → ∃ k, 1 ≤ k ∧
      resolveCollision files p = suffixCand (splitext p).1 (splitext p).2 k ∧
      suffixCand (splitext p).1 (splitext p).2 k ∉ files ∧
      ∀ i, 1 ≤ i → i < k → suffixCand (splitext p).1 (splitext p).2 i ∈ files) := by
  by_cases hp : p ∈ files
  · have hfuel : ∃ j, j < files.length + 1 ∧
        suffixCand (splitext p).1 (splitext p).2 (1 + j) ∉ files := by
      obtain ⟨j, hj1, hj2⟩ := exists_fresh_cand files (splitext p).1 (splitext p).2 1
      exact ⟨j, by omega, hj2⟩
    obtain ⟨k, hk1, hk2, hk3, hk4⟩ :=
      probeFrom_spec files (splitext p).1 (splitext p).2 (files.length + 1) 1 hfuel
    have hres : resolveCollision files p =
        suffixCand (splitext p).1 (splitext p).2 k := by
      rw [resolveCollision, if_pos hp, hk2]
    refine ⟨by rw [hres]; exact hk3, fun hnp => absurd hp hnp, fun _ => ⟨k, hk1, hres, hk3, hk4⟩⟩
  · rw [resolveCollision, if_neg hp]
    exact ⟨hp, fun _ => rfl, fun hin => absurd hin hp⟩

-- ------------------------------------------------------------------
-- Shape lemmas for paths of the form dir ++ slash :: name
-- ------------------------------------------------------------------

theorem rfind_none (c : Nat) (l : Str) (h : c ∉ l) : rfindIdxOf c l = none := by
  induction l with
  | nil => rfl
  | cons x xs ih =>
      have hxc : ¬(x = c) := fun hx => h (by subst hx; exact List.mem_cons_self _ _)
      simp [rfindIdxOf, ih (fun hx => h (List.mem_cons_of_mem _ hx)), hxc]

theorem rfind_sep (dir m : Str) (hm : 47 ∉ m) :
    rfindIdxOf 47 (dir ++ 47 :: m) = some dir.length := by
  induction dir with
  | nil =>
      simp only [List.nil_append, rfindIdxOf]
      rw [rfind_none 47 m hm]
      simp
  | cons x xs ih =>
      simp only [List.cons_append, rfindIdxOf, List.append_eq]
      rw [ih]
      simp

theorem basename_shape (dir m : Str) (hm : 47 ∉ m) :
    basename (dir ++ 47 :: m) = m := by
  simp only [basename, rfind_sep dir m hm]
  have heq : dir ++ 47 :: m = (dir ++ [47]) ++ m := by simp
  rw [heq]
  have hlen : dir.length + 1 = (dir ++ [47]).length := by simp
  rw [hlen, List.drop_left]

theorem dirname_shape (dir m : Str) (h1 : dir ≠ []) (h2 : dir.getLast? ≠ some 47)
    (hm : 47 ∉ m) : dirname (dir ++ 47 :: m) = dir := by
  simp only [dirname, rfind_sep dir m hm]
  have htake : (dir ++ 47 :: m).take (dir.length + 1) = dir ++ [47] := by
    have heq : dir ++ 47 :: m = (dir ++ [47]) ++ m := by simp
    rw [heq]
    have hlen : dir.length + 1 = (dir ++ [47]).length := by simp
    rw [hlen, List.take_left]
  rw [htake]
  cases hr : dir.reverse with
  | nil => exact absurd (by simpa using congrArg List.reverse hr) h1
  | cons y ys =>
      have hymem : y ∈ dir := List.mem_reverse.mp (by rw [hr]; exact List.mem_cons_self _ _)
      have hy : dir.getLast? = some y := by
        rw [← List.head?_reverse, hr]
        rfl
      have hy47 : y ≠ 47 := fun hc => h2 (by rw [hy, hc])
      have hany : (dir ++ [47]).any (fun c => !(c == 47)) = true := by
        rw [List.any_eq_true]
        exact ⟨y, List.mem_append_left _ hymem, by simp [hy47]⟩
      rw [if_pos hany]
      unfold rstripSlashes
      rw [List.reverse_append]
      simp only [List.reverse_cons, List.reverse_nil, List.nil_append, List.singleton_append]
      rw [List.dropWhile_cons, if_pos (by simp), hr, List.dropWhile_cons,
        if_neg (by simp [hy47]), ← hr, List.reverse_reverse]

theorem joinPath_shape (dir b : Str) (h1 : dir ≠ []) (h2 : dir.getLast? ≠ some 47)
    (hb : b.head? ≠ some 47) : joinPath dir b = dir ++ 47 :: b := by
  unfold joinPath
  rw [if_neg hb, if_neg (not_or.mpr ⟨h1, h2⟩)]

theorem natDigitsAux_mem (fuel : Nat) :
    ∀ (n c : Nat), c ∈ natDigitsAux fuel n → 48 ≤ c ∧ c ≤ 57 := by
  induction fuel with
  | zero => intro n c h; simp [natDigitsAux] at h
  | succ f ih =>
      intro n c h
      simp only [natDigitsAux] at h
      by_cases h10 : n < 10
      · rw [if_pos h10] at h
        simp at h
        omega
      · rw [if_neg h10] at h
        rcases List.mem_append.mp h with h2 | h2
        · exact ih _ _ h2
        · simp at h2
          have : n % 10 < 10 := Nat.mod_lt _ (by omega)
          omega

theorem natDigits_mem (n c : Nat) (h : c ∈ natDigits n) : 48 ≤ c ∧ c ≤ 57 :=
  natDigitsAux_mem _ _ _ h

theorem splitext_shape (dir m : Str) (hm : 47 ∉ m) :
    ∃ m1 m2, (splitext (dir ++ 47 :: m)).1 = dir ++ 47 :: m1 ∧
      (splitext (dir ++ 47 :: m)).2 = m2 ∧ 47 ∉ m1 ∧ 47 ∉ m2 := by
  cases hd : rfindIdxOf 46 (dir ++ 47 :: m) with
  | none =>
      refine ⟨m, [], ?_, ?_, hm, by simp⟩
      · simp only [splitext, hd]
      · simp only [splitext, hd]
  | some d =>
      simp only [splitext, hd, rfind_sep dir m hm]
      by_cases hcond : dir.length + 1 ≤ d ∧
          (((dir ++ 47 :: m).drop (dir.length + 1)).take (d - (dir.length + 1))).any
            (fun c => !(c == 46)) = true
      · rw [if_pos hcond]
        obtain ⟨hd1, _⟩ := hcond
        have heq : dir ++ 47 :: m = (dir ++ [47]) ++ m := by simp
        have hlen : (dir ++ [47]).length = dir.length + 1 := by simp
        refine ⟨m.take (d - (dir.length + 1)), m.drop (d - (dir.length + 1)), ?_, ?_, ?_, ?_⟩
        · show (dir ++ 47 :: m).take d = _
          rw [heq, List.take_append_eq_append_take,
            List.take_of_length_le (by omega : (dir ++ [47]).length ≤ d), hlen]
          simp
        · show (dir ++ 47 :: m).drop d = _
          rw [heq, List.drop_append_eq_append_drop,
            List.drop_eq_nil_of_le (by omega : (dir ++ [47]).length ≤ d), hlen]
          simp
        · intro hc
          exact hm ((List.take_sublist _ _).subset hc)
        · intro hc
          exact hm ((List.drop_sublist _ _).subset hc)
      · rw [if_neg hcond]
        exact ⟨m, [], rfl, rfl, hm, by simp⟩

theorem probeFrom_is_cand (files : List Str) (base ext : Str) :
    ∀ fuel counter, ∃ k, probeFrom files base ext counter fuel = suffixCand base ext k := by
  intro fuel
  induction fuel with
  | zero => intro counter; exact ⟨counter, rfl⟩
  | succ f ih =>
      intro counter
      simp only [probeFrom]
      by_cases hc : suffixCand base ext counter ∈ files
      · rw [if_pos hc]; exact ih (counter + 1)
      · rw [if_neg hc]; exact ⟨counter, rfl⟩

theorem suffixCand_no_slash (dir m1 ext : Str) (h1 : 47 ∉ m1) (h2 : 47 ∉ ext)
    (k : Nat) :
    ∃ m', suffixCand (dir ++ 47 :: m1) ext k = dir ++ 47 :: m' ∧ 47 ∉ m' := by
  refine ⟨(m1 ++ 95 :: natDigits k) ++ ext, ?_, ?_⟩
  · unfold suffixCand
    simp
  · intro hc
    rcases List.mem_append.mp hc with h3 | h3
    · rcases List.mem_append.mp h3 with h4 | h4
      · exact h1 h4
      · rcases List.mem_cons.mp h4 with h5 | h5
        · omega
        · have := natDigits_mem k 47 h5
          omega
    · exact h2 h3

theorem resolveCollision_shape (files : List Str) (dir m : Str) (hm : 47 ∉ m) :
    ∃ m', resolveCollision files (dir ++ 47 :: m) = dir ++ 47 :: m' ∧ 47 ∉ m' := by
  unfold resolveCollision
  by_cases hp : (dir ++ 47 :: m) ∈ files
  · rw [if_pos hp]
    obtain ⟨m1, m2, hsp1, hsp2, hm1, hm2⟩ := splitext_shape dir m hm
    obtain ⟨k, hk⟩ := probeFrom_is_cand files (splitext (dir ++ 47 :: m)).1
      (splitext (dir ++ 47 :: m)).2 (files.length + 1) 1
    rw [hk, hsp1, hsp2]
    exact suffixCand_no_slash dir m1 m2 hm1 hm2 k
  · rw [if_neg hp]
    exact ⟨m, rfl, hm⟩

/-- A sanitized component with its placeholder is nonempty and slash-free. -/
theorem clean_component_props (t : Option Str) (ph : Str)
    (hph1 : ph ≠ []) (hph2 : 47 ∉ ph) :
    orPlaceholder (clean_filename t) ph ≠ [] ∧ 47 ∉ orPlaceholder (clean_filename t) ph := by
  unfold orPlaceholder
  by_cases hc : clean_filename t = []
  · rw [if_pos hc]; exact ⟨hph1, hph2⟩
  · rw [if_neg hc]
    refine ⟨hc, ?_⟩
    intro h47
    match t with
    | none => exact absurd h47 (by decide)
    | some s =>
        by_cases hs : s = []
        · subst hs; exact absurd h47 (by decide)
        · have hall := clean_filename_chars s hs 47 h47
          exact absurd hall (by decide)

theorem head?_append_of_ne_nil (a b : Str) (ha : a ≠ []) :
    (a ++ b).head? = a.head? := by
  cases a with
  | nil => exact absurd rfl ha
  | cons x xs => rfl

/-- The synthesized filename (author, dash, title, dot pdf) is slash-free and does
not start with a slash. -/
theorem new_name_props (A T : Str) (hA1 : A ≠ []) (hA2 : 47 ∉ A) (hT2 : 47 ∉ T) :
    47 ∉ A ++ strChars (" - ") ++ T ++ strChars (".pdf") ∧
    (A ++ strChars (" - ") ++ T ++ strChars (".pdf")).head? ≠ some 47 := by
  constructor
  · intro hc
    rcases List.mem_append.mp hc with h1 | h1
    · rcases List.mem_append.mp h1 with h2 | h2
      · rcases List.mem_append.mp h2 with h3 | h3
        · exact hA2 h3
        · exact absurd h3 (by decide)
      · exact hT2 h2
    · exact absurd h1 (by decide)
  · rw [head?_append_of_ne_nil _ _ (by
        intro hh
        exact hA1 (List.append_eq_nil.mp (List.append_eq_nil.mp hh).1).1),
      head?_append_of_ne_nil _ _ (by
        intro hh
        exact hA1 (List.append_eq_nil.mp hh).1),
      head?_append_of_ne_nil _ _ hA1]
    intro hh
    cases A with
    | nil => exact hA1 rfl
    | cons c cs =>
        simp only [List.head?_cons, Option.some.injEq] at hh
        exact hA2 (by rw [← hh]; exact List.mem_cons_self _ _)

/-- Structure of a successful `rename_readable` step: the reported new name
is slash-free, and either the filesystem is unchanged with the original name
reported, or the file moved to a fresh path in the same directory. -/
theorem rename_readable_shape (chat : Str → Option Str) (loads : Str → Option Json)
    (fs : FS) (dir m text : Str)
    (hm : 47 ∉ m) (hdir1 : dir ≠ []) (hdir2 : dir.getLast? ≠ some 47)
    (res : FS × Row)
    (h : rename_readable chat loads fs (dir ++ 47 :: m) text = .ok res) :
    ∃ m', 47 ∉ m' ∧ res.2.newName = m' ∧
      ((res.1 = fs ∧ m' = m) ∨
       (dir ++ 47 :: m' ∉ fs.files ∧
        res.1.files = (dir ++ 47 :: m') :: fs.files.erase (dir ++ 47 :: m) ∧
        res.1.failing = fs.failing)) := by
  simp only [rename_readable] at h
  set ta := refine_with_llama3 chat loads text with hta
  have hAprops : clean_author_component ta.2 ≠ [] ∧ 47 ∉ clean_author_component ta.2 := by
    rw [clean_author_component]
    exact clean_component_props ta.2 (strChars ("Unknown Author")) (by decide) (by decide)
  have hTprops : clean_title_component ta.1 ≠ [] ∧ 47 ∉ clean_title_component ta.1 := by
    rw [clean_title_component]
    exact clean_component_props ta.1 (strChars ("Unknown Title")) (by decide) (by decide)
  obtain ⟨hnn_ne, hnn_head⟩ := new_name_props (clean_author_component ta.2)
    (clean_title_component ta.1) hAprops.1 hAprops.2 hTprops.2
  have hjoin : joinPath (dirname (dir ++ 47 :: m))
      (clean_author_component ta.2 ++ strChars (" - ") ++
        clean_title_component ta.1 ++ strChars (".pdf")) =
      dir ++ 47 :: (clean_author_component ta.2 ++ strChars (" - ") ++
        clean_title_component ta.1 ++ strChars (".pdf")) := by
    rw [dirname_shape dir m hdir1 hdir2 hm]
    exact joinPath_shape dir _ hdir1 hdir2 hnn_head
  rw [hjoin] at h
  obtain ⟨m', hres, hm'⟩ := resolveCollision_shape fs.files dir _ hnn_ne
  have hfresh : dir ++ 47 :: m' ∉ fs.files := by
    rw [← hres]
    exact (resolveCollision_spec fs.files _).1
  rw [hres] at h
  by_cases hcond : clean_author_component ta.2 ≠ strChars ("Unknown") ∨
      clean_title_component ta.1 ≠ strChars ("Unknown Title")
  · rw [if_pos hcond] at h
    unfold osRename at h
    by_cases hfail : (dir ++ 47 :: m) ∈ fs.failing
    · rw [if_pos hfail] at h
      exact absurd h (by simp)
    · rw [if_neg hfail] at h
      simp only [] at h
      have hinj := Except.ok.inj h
      refine ⟨m', hm', ?_, Or.inr ⟨hfresh, ?_, ?_⟩⟩
      · rw [← hinj]
        exact basename_shape dir m' hm'
      · rw [← hinj]
      · rw [← hinj]
  · rw [if_neg hcond] at h
    have hinj := Except.ok.inj h
    refine ⟨m, hm, ?_, Or.inl ⟨?_, rfl⟩⟩
    · rw [← hinj]
      exact basename_shape dir m hm
    · rw [← hinj]

/-- Structure of a successful `rename_pdf` step. -/
theorem rename_pdf_shape (chat : Str → Option Str) (loads : Str → Option Json)
    (fs : FS) (d : Doc) (dir m : Str)
    (hpath : d.path = dir ++ 47 :: m) (hm : 47 ∉ m)
    (hdir1 : dir ≠ []) (hdir2 : dir.getLast? ≠ some 47)
    (res : FS × Row)
    (h : rename_pdf chat loads fs d = .ok res) :
    ∃ m', 47 ∉ m' ∧ res.2.newName = m' ∧
      ((res.1 = fs ∧ m' = m) ∨
       (dir ++ 47 :: m' ∉ fs.files ∧
        res.1.files = (dir ++ 47 :: m') :: fs.files.erase d.path ∧
        res.1.failing = fs.failing)) := by
  rw [rename_pdf] at h
  cases hx : d.extracted with
  | none =>
      rw [hx] at h
      have hinj := Except.ok.inj h
      refine ⟨m, hm, ?_, Or.inl ⟨?_, rfl⟩⟩
      · rw [← hinj, hpath]
        exact basename_shape dir m hm
      · rw [← hinj]
  | some text =>
      rw [hx, hpath] at h
      rw [hpath]
      exact rename_readable_shape chat loads fs dir m text hm hdir1 hdir2 res h

/-- Run-level uniqueness: processing a batch of documents of one directory,
all existing and with pairwise distinct paths, yields report rows whose final
names are pairwise distinct — no two documents of one run end up at the same
final path.  The second conjunct is the induction classification: every
reported final path is either fresh relative to the starting filesystem or
one of the batch's original paths. -/
theorem processAll_distinct_names (chat : Str → Option Str) (loads : Str → Option Json)
    (dir : Str) (hdir1 : dir ≠ []) (hdir2 : dir.getLast? ≠ some 47) :
    ∀ (docs : List Doc) (fs fsOut : FS) (rows : List Row),
      (docs.map Doc.path).Nodup →
      (∀ d ∈ docs, d.path ∈ fs.files) →
      (∀ d ∈ docs, ∃ m, d.path = dir ++ 47 :: m ∧ 47 ∉ m) →
      processAll chat loads fs docs = .ok (fsOut, rows) →
      (rows.map Row.newName).Nodup ∧
      (∀ n ∈ rows.map Row.newName,
        dir ++ 47 :: n ∉ fs.files ∨ dir ++ 47 :: n ∈ docs.map Doc.path) := by
  intro docs
  induction docs with
  | nil =>
      intro fs fsOut rows _ _ _ h
      simp only [processAll] at h
      have hinj := Except.ok.inj h
      injection hinj with _ h2
      subst h2
      exact ⟨by simp, by simp⟩
  | cons d ds ih =>
      intro fs fsOut rows hnodup hmem hshape h
      simp only [processAll] at h
      cases hr : rename_pdf chat loads fs d with
      | error e => rw [hr] at h; exact absurd h (by simp)
      | ok pr =>
          obtain ⟨fs1, row1⟩ := pr
          rw [hr] at h
          simp only [] at h
          cases hp : processAll chat loads fs1 ds with
          | error e => rw [hp] at h; exact absurd h (by simp)
          | ok qr =>
              obtain ⟨fs2, rows1⟩ := qr
              rw [hp] at h
              simp only [] at h
              have hinj := Except.ok.inj h
              injection hinj with h1 h2
              subst h1
              subst h2
              obtain ⟨m, hpm, hm⟩ := hshape d (List.mem_cons_self _ _)
              have hnodup2 := hnodup
              rw [List.map_cons, List.nodup_cons] at hnodup2
              obtain ⟨hhead, htail⟩ := hnodup2
              obtain ⟨m', hm', hname, hcases⟩ := rename_pdf_shape chat loads fs d dir m
                hpm hm hdir1 hdir2 (fs1, row1) hr
              replace hname : row1.newName = m' := hname
              have hdmem : d.path ∈ fs.files := hmem d (List.mem_cons_self _ _)
              rcases hcases with ⟨hfs1, hm'm⟩ | ⟨hfresh, hfiles, _⟩
              · -- filesystem unchanged, original name reported
                replace hfs1 : fs1 = fs := hfs1
                subst hm'm
                obtain ⟨hnd1, hcls1⟩ := ih fs1 fs2 rows1 htail
                  (fun d' hd' => by rw [hfs1]; exact hmem d' (List.mem_cons_of_mem _ hd'))
                  (fun d' hd' => hshape d' (List.mem_cons_of_mem _ hd')) hp
                rw [List.map_cons, hname]
                constructor
                · rw [List.nodup_cons]
                  refine ⟨?_, hnd1⟩
                  intro hmem1
                  rcases hcls1 m' hmem1 with hcl | hcl
                  · rw [hfs1] at hcl
                    exact hcl (hpm ▸ hdmem)
                  · rw [← hpm] at hcl
                    exact hhead hcl
                · intro n hn
                  rcases List.mem_cons.mp hn with hn1 | hn1
                  · subst hn1
                    right
                    rw [List.map_cons, ← hpm]
                    exact List.mem_cons_self _ _
                  · rcases hcls1 n hn1 with hcl | hcl
                    · left; rwa [hfs1] at hcl
                    · right; rw [List.map_cons]; exact List.mem_cons_of_mem _ hcl
              · -- renamed to a fresh path
                replace hfiles : fs1.files = (dir ++ 47 :: m') :: fs.files.erase d.path := hfiles
                have hstep : ∀ d' ∈ ds, d'.path ∈ fs1.files := by
                  intro d' hd'
                  have hne : d'.path ≠ d.path := by
                    intro hc
                    exact hhead (hc ▸ List.mem_map_of_mem Doc.path hd')
                  have h1 : d'.path ∈ fs.files.erase d.path :=
                    (List.mem_erase_of_ne hne).mpr (hmem d' (List.mem_cons_of_mem _ hd'))
                  rw [hfiles]
                  exact List.mem_cons_of_mem _ h1
                obtain ⟨hnd1, hcls1⟩ := ih fs1 fs2 rows1 htail hstep
                  (fun d' hd' => hshape d' (List.mem_cons_of_mem _ hd')) hp
                rw [List.map_cons, hname]
                constructor
                · rw [List.nodup_cons]
                  refine ⟨?_, hnd1⟩
                  intro hmem1
                  rcases hcls1 m' hmem1 with hcl | hcl
                  · apply hcl
                    rw [hfiles]
                    exact List.mem_cons_self _ _
                  · obtain ⟨d', hd', hpd'⟩ := List.mem_map.mp hcl
                    have : d'.path ∈ fs.files := hmem d' (List.mem_cons_of_mem _ hd')
                    rw [hpd'] at this
                    exact hfresh this
                · intro n hn
                  rcases List.mem_cons.mp hn with hn1 | hn1
                  · subst hn1
                    left
                    exact hfresh
                  · rcases hcls1 n hn1 with hcl | hcl
                    · by_cases heq : dir ++ 47 :: n = d.path
                      · right
                        rw [List.map_cons, heq]
                        exact List.mem_cons_self _ _
                      · left
                        intro hin
                        apply hcl
                        rw [hfiles]
                        exact List.mem_cons_of_mem _ ((List.mem_erase_of_ne heq).mpr hin)
                    · right
                      rw [List.map_cons]
                      exact List.mem_cons_of_mem _ hcl

/-- C6: collision resolution is deterministic, exhaustive sequential probing:
the resolved path never collides with an existing file; an unused candidate
is kept as is; a used candidate receives the first unused numeric suffix,
with `_1`, `_2`, … tried in order before the extension; with `X.pdf` and
`X_1.pdf` existing, candidate `X.pdf` resolves to `X_2.pdf`; and over a whole
run of the orchestrator on one directory, no two documents end up with the
same final name. -/
theorem collision_resolution_spec :
    (∀ (files : List Str) (p : Str), resolveCollision files p ∉ files) ∧
    (∀ (files : List Str) (p : Str), p ∉ files → resolveCollision files p = p) ∧
    (∀ (files : List Str) (p : Str), p ∈ files → ∃ k, 1 ≤ k ∧
      resolveCollision files p = suffixCand (splitext p).1 (splitext p).2 k ∧
      suffixCand (splitext p).1 (splitext p).2 k ∉ files ∧
      ∀ i, 1 ≤ i → i < k → suffixCand (splitext p).1 (splitext p).2 i ∈ files) ∧
    (resolveCollision [strChars ("/d/X.pdf"), strChars ("/d/X_1.pdf")]
      (strChars ("/d/X.pdf")) = strChars ("/d/X_2.pdf")) ∧
    (∀ (chat : Str → Option Str) (loads : Str → Option Json) (dir : Str)
        (docs : List Doc) (fs fsOut : FS) (rows : List Row),
      dir ≠ [] → dir.getLast? ≠ some 47 →
      (docs.map Doc.path).Nodup →
      (∀ d ∈ docs, d.path ∈ fs.files) →
      (∀ d ∈ docs, ∃ m, d.path = dir ++ 47 :: m ∧ 47 ∉ m) →
      processAll chat loads fs docs = .ok (fsOut, rows) →
      (rows.map Row.newName).Nodup) := by
  refine ⟨fun files p => (resolveCollision_spec files p).1,
    fun files p => (resolveCollision_spec files p).2.1,
    fun files p hp => (resolveCollision_spec files p).2.2 hp,
    by decide,
    ?_⟩
  intro chat loads dir docs fs fsOut rows h1 h2 h3 h4 h5 h6
  exact (processAll_distinct_names chat loads dir h1 h2 docs fs fsOut rows h3 h4 h5 h6).1

/-- Witness for C6 at concrete inputs: an unused candidate passes through
unchanged, and a concrete two-document run (one document renamed, one
encrypted) yields pairwise distinct final names. -/
theorem collision_resolution_spec_witness :
    resolveCollision [] (strChars ("/q/a.pdf")) = strChars ("/q/a.pdf") ∧
    (([⟨strChars ("a.pdf"), none, none, strChars ("Unknown - Unknown.pdf")⟩,
       ⟨strChars ("b.pdf"), some (strChars ("Encrypted")), some (strChars ("Encrypted")),
        strChars ("b.pdf")⟩] : List Row).map Row.newName).Nodup := by
  constructor
  · exact collision_resolution_spec.2.1 [] (strChars ("/q/a.pdf")) (by decide)
  · refine collision_resolution_spec.2.2.2.2 (fun _ => none) (fun _ => none)
      (strChars ("/d"))
      [⟨strChars ("/d/a.pdf"), some (strChars ("t"))⟩, ⟨strChars ("/d/b.pdf"), none⟩]
      ⟨[strChars ("/d/a.pdf"), strChars ("/d/b.pdf")], []⟩
      ⟨[strChars ("/d/Unknown - Unknown.pdf"), strChars ("/d/b.pdf")], []⟩
      [⟨strChars ("a.pdf"), none, none, strChars ("Unknown - Unknown.pdf")⟩,
       ⟨strChars ("b.pdf"), some (strChars ("Encrypted")), some (strChars ("Encrypted")),
        strChars ("b.pdf")⟩]
      (by decide) (by decide) (by decide) (by decide) ?_ (by decide)
    intro d hd
    rcases List.mem_cons.mp hd with h | h
    · subst h
      exact ⟨strChars ("a.pdf"), by decide, by decide⟩
    · rcases List.mem_cons.mp h with h2 | h2
      · subst h2
        exact ⟨strChars ("b.pdf"), by decide, by decide⟩
      · simp at h2
